import Mathlib

/-!
Verification development for `directory-manager.py`, a duplicate-detection
and cleanup utility.  The filesystem is modelled as a finite tree of
directories (`Dir`), paths as lists of name components, and each Python
function of the script is embedded as an executable Lean definition:

* `splitext`          — `os.path.splitext` restricted to base names
                        (the script only ever applies it to base names);
* `walkD` / `walkL`   — `os.walk` (top-down, parent before children,
                        children in listing order);
* `scan_files` / `scan_folders` — the name indexers;
* `move_duplicates`-style batches, collision-safe destination naming;
* `find_empty_directories`, `delete_empty_directories_recursive`;
* `generate_report` naming, `consolidate_txt_files` content logic;
* the `--type` resolution and consolidate type check from `main`.

Python dicts are modelled as association lists in key-insertion order,
which matches dict iteration order; Python sets have no specified
iteration order, which is modelled by an explicit reordering parameter.
-/

/-- `os.path.splitext` on a base name (no directory separators): split at
the last dot, unless every character before that dot is itself a dot
(so leading dots, as in `.bashrc`, never start an extension). -/
def splitext (s : String) : String × String :=
  let cs := s.data
  match cs.reverse.findIdx? (· = '.') with
  | none => (s, "")
  | some i =>
    let sepIdx := cs.length - 1 - i
    if (cs.take sepIdx).all (· = '.') then (s, "")
    else (⟨cs.take sepIdx⟩, ⟨cs.drop sepIdx⟩)

/-- The candidate collision name `f"{base}_{counter}{ext}"`. -/
def candName (base ext : String) (c : Nat) : String :=
  base ++ "_" ++ toString c ++ ext

/-- Python `str.lower()` restricted to ASCII: lower-case each character. -/
def pyLower (s : String) : String :=
  ⟨s.data.map Char.toLower⟩

/-- Python `s.startswith('.')`: the first character is a dot. -/
def pyStartsWithDot (s : String) : Bool :=
  match s.data with
  | '.' :: _ => true
  | _ => false

/-- Python `str.isspace` membership for the ASCII whitespace characters
that `str.strip()` removes. -/
def pyIsSpace (c : Char) : Bool :=
  c = ' ' || c = '\t' || c = '\n' || c = '\r' || c = '\x0b' || c = '\x0c'

/-- Python `str.strip()`: drop leading and trailing whitespace. -/
def pyStrip (s : String) : String :=
  ⟨((s.data.dropWhile pyIsSpace).reverse.dropWhile pyIsSpace).reverse⟩

/-- A directory tree: name, subdirectories (in listing order), and the
names of the files directly inside it (in listing order). -/
inductive Dir : Type where
  | mk : (name : String) → (subdirs : List Dir) → (files : List String) → Dir

def Dir.name : Dir → String
  | .mk n _ _ => n

def Dir.subdirs : Dir → List Dir
  | .mk _ s _ => s

def Dir.files : Dir → List String
  | .mk _ _ f => f

mutual

/-- `os.walk(base_dir)` (top-down): the visited directory itself first,
then its subtrees in listing order.  Each element pairs the visited
directory's path with its tree (whose `subdirs`/`files` are the walk's
`dirs`/`files` lists). -/
def walkD (path : List String) : Dir → List (List String × Dir)
  | .mk n subs files => (path, .mk n subs files) :: walkL path subs

def walkL (path : List String) : List Dir → List (List String × Dir)
  | [] => []
  | d :: ds => walkD (path ++ [d.name]) d ++ walkL path ds

end

/-- `results.setdefault(key, []).append(v)` on a dict modelled as an
association list in key-insertion order. -/
def indexInsert (idx : List (String × List (List String))) (k : String) (v : List String) :
    List (String × List (List String)) :=
  match idx with
  | [] => [(k, [v])]
  | (k', vs) :: rest =>
    if k' = k then (k', vs ++ [v]) :: rest else (k', vs) :: indexInsert rest k v

/-- Build the name index from the stream of `(name, full_path)` pairs in
discovery order. -/
def buildIndex (entries : List (String × List String)) : List (String × List (List String)) :=
  entries.foldl (fun idx e => indexInsert idx e.1 e.2) []

/-- The filter clauses of `scan_files`: skip when a name filter is set and
the file name differs, or when an extension filter is set and the
case-insensitive `splitext` suffix differs. -/
def file_keep (name_filter ext_filter : Option String) (f : String) : Bool :=
  (match name_filter with
   | some n => f == n
   | none => true) &&
  (match ext_filter with
   | some e => pyLower (splitext f).2 == pyLower e
   | none => true)

/-- The filter clause of `scan_folders`: skip when a name filter is set
and the folder name differs. -/
def folder_keep (name_filter : Option String) (f : String) : Bool :=
  match name_filter with
  | some n => f == n
  | none => true

/-- The `(file, full_path)` pairs appended by `scan_files`, in walk order:
for each visited directory, its surviving files in listing order. -/
def walk_file_entries (base : List String) (d : Dir) (nf ef : Option String) :
    List (String × List String) :=
  ((walkD base d).map
    (fun e => (e.2.files.filter (file_keep nf ef)).map (fun f => (f, e.1 ++ [f])))).flatten

/-- The `(folder, full_path)` pairs appended by `scan_folders`, in walk
order: for each visited directory, its surviving subdirectory names. -/
def walk_folder_entries (base : List String) (d : Dir) (nf : Option String) :
    List (String × List String) :=
  ((walkD base d).map
    (fun e => ((e.2.subdirs.map Dir.name).filter (folder_keep nf)).map
      (fun n => (n, e.1 ++ [n])))).flatten

/-- `scan_files(base_dir, name_filter, ext_filter)`. -/
def scan_files (base : List String) (d : Dir) (nf ef : Option String) :
    List (String × List (List String)) :=
  buildIndex (walk_file_entries base d nf ef)

/-- `scan_folders(base_dir, name_filter)`. -/
def scan_folders (base : List String) (d : Dir) (nf : Option String) :
    List (String × List (List String)) :=
  buildIndex (walk_folder_entries base d nf)

/-- The duplicate policy inlined in `main`:
`{name: paths for name, paths in results.items() if len(paths) > 1}`. -/
def derive_duplicates (idx : List (String × List (List String))) :
    List (String × List (List String)) :=
  idx.filter (fun g => 1 < g.2.length)

example :
    scan_files ["r"] (.mk "r" [.mk "a" [] ["x.txt"], .mk "b" [] ["x.txt"], .mk "c" [] ["y.txt"]] [])
      none (some ".txt") =
    [("x.txt", [["r", "a", "x.txt"], ["r", "b", "x.txt"]]), ("y.txt", [["r", "c", "y.txt"]])] := rfl

example : splitext "v1.0" = ("v1", ".0") := rfl

example : splitext ".bashrc" = (".bashrc", "") := rfl

example : splitext "a.tar.gz" = ("a.tar", ".gz") := rfl

/-- The `while os.path.exists(...)` counter search of the movers: starting
from `c`, advance while the candidate name is taken.  The Python loop is
unbounded; since only finitely many names exist the model carries fuel,
set by callers to one more than the number of names present. -/
def resolveCounter (destNames : List String) (base ext : String) : Nat → Nat → Nat
  | 0, c => c
  | fuel + 1, c =>
    if candName base ext c ∈ destNames then resolveCounter destNames base ext fuel (c + 1)
    else c

/-- Destination-name resolution of `move_duplicates` / `move_all_items`
(lines 161–167): keep the base name if free, otherwise split off the
extension with `os.path.splitext` — regardless of whether the item is a
file or a directory — and take the first free `{base}_{counter}{ext}`,
counting from 1. -/
def resolveDestName (destNames : List String) (srcName : String) : String :=
  if srcName ∈ destNames then
    let be := splitext srcName
    candName be.1 be.2 (resolveCounter destNames be.1 be.2 (destNames.length + 1) 1)
  else srcName

/-- Destination-name resolution of `move_out_last_folder` (lines 268–273):
keep the folder name if free, otherwise take the first free
`{name}_{counter}` — the counter goes after the whole name, with no
`splitext`. -/
def resolveFolderDestName (destNames : List String) (srcName : String) : String :=
  if srcName ∈ destNames then
    candName srcName "" (resolveCounter destNames srcName "" (destNames.length + 1) 1)
  else srcName

/-- Per-item result of a batch move/delete (§3 of the spec's data model). -/
inductive Outcome : Type where
  | moved : List String → String → Outcome
  | deleted : List String → Outcome
  | skippedMissing : List String → Outcome
  | failed : List String → String → Outcome
deriving DecidableEq

/-- The source path an outcome reports on. -/
def Outcome.source : Outcome → List String
  | .moved s _ => s
  | .deleted s => s
  | .skippedMissing s => s
  | .failed s _ => s

/-- State seen by a move batch: the set of source paths still present,
and the names already present in the destination directory. -/
structure MoveSt : Type where
  fs : List (List String)
  destNames : List String
deriving DecidableEq

/-- The last path component (`os.path.basename` on a component path). -/
def basename (p : List String) : String :=
  (p.getLast?).getD ""

/-- One iteration of the loop body of `move_duplicates` /
`move_all_items`: skip a missing source, report any raised error for the
item (`err` gives the cause when `shutil.move` would raise), otherwise
resolve a collision-free destination name and move. -/
def moveStep (err : List String → Option String) (st : MoveSt) (p : List String) :
    Outcome × MoveSt :=
  if p ∈ st.fs then
    match err p with
    | some c => (.failed p c, st)
    | none =>
      let destName := resolveDestName st.destNames (basename p)
      (.moved p destName, ⟨st.fs.erase p, st.destNames ++ [destName]⟩)
  else (.skippedMissing p, st)

/-- The `for path in ...` loop of the movers: process every path in input
order, threading the filesystem state; no outcome ever aborts the rest. -/
def moveBatch (err : List String → Option String) (st : MoveSt) :
    List (List String) → List Outcome
  | [] => []
  | p :: ps =>
    let r := moveStep err st p
    r.1 :: moveBatch err r.2 ps

/-- `move_duplicates(duplicates, destination, item_type)`: for each group
in order, move `paths[1:]`; the nested loops process exactly the
concatenation of the groups' tails. -/
def move_duplicates (dups : List (String × List (List String)))
    (err : List String → Option String) (st : MoveSt) : List Outcome :=
  moveBatch err st ((dups.map (fun g => g.2.drop 1)).flatten)

/-- One iteration of the loop body of `delete_all_items` (and of the
inline duplicate-delete loop in `main`): skip a missing source, report a
raised error, otherwise remove the path. -/
def deleteStep (err : List String → Option String) (fs : List (List String))
    (p : List String) : Outcome × List (List String) :=
  if p ∈ fs then
    match err p with
    | some c => (.failed p c, fs)
    | none => (.deleted p, fs.erase p)
  else (.skippedMissing p, fs)

/-- The deletion loop of `delete_all_items`: every path processed in
order, no abort. -/
def deleteBatch (err : List String → Option String) (fs : List (List String)) :
    List (List String) → List Outcome
  | [] => []
  | p :: ps =>
    let r := deleteStep err fs p
    r.1 :: deleteBatch err r.2 ps

/-- Length of the longest common prefix of two component paths. -/
def commonPrefixLen : List String → List String → Nat
  | a :: as, b :: bs => if a = b then commonPrefixLen as bs + 1 else 0
  | _, _ => 0

/-- `os.path.relpath(target, current)` on normalized component paths:
walk up from `current` past the common prefix, then down into `target`;
the same directory yields `["."]`. -/
def relpathComps (target current : List String) : List String :=
  let k := commonPrefixLen target current
  let ups := current.length - k
  let downs := target.drop k
  if ups = 0 ∧ downs = [] then ["."]
  else List.replicate ups ".." ++ downs

/-- `os.path.relpath(target, current).count(os.sep)`: one less than the
number of components of the relative path. -/
def sepCount (target current : List String) : Nat :=
  (relpathComps target current).length - 1

/-- The selection loop of `move_out_last_folder` (lines 252–262): scan the
walk, skip the current directory, and among visited directories that
directly contain files keep the first one whose `relpath` separator count
strictly exceeds the running maximum (initially `-1`). -/
def moveOutScan (current : List String) (st : Int × Option (List String))
    (e : List String × Dir) : Int × Option (List String) :=
  if e.1 = current then st
  else if e.2.files.isEmpty then st
  else if (sepCount e.1 current : Int) > st.1 then ((sepCount e.1 current : Int), some e.1)
  else st

/-- `move_out_last_folder(base_dir)`'s choice of `deepest_folder`:
`none` models the "No nested folder with files found to move." branch. -/
def move_out_last_folder (current base : List String) (d : Dir) : Option (List String) :=
  ((walkD base d).foldl (moveOutScan current) (-1, none)).2

/-- `find_empty_directories(base_dir)`: every walked directory — the base
directory itself included, since `os.walk` yields it first — whose
listing is empty. -/
def find_empty_directories (base : List String) (d : Dir) : List (List String) :=
  (walkD base d).filterMap
    (fun e => if e.2.subdirs.isEmpty && e.2.files.isEmpty then some e.1 else none)

mutual

/-- `delete_empty_directories_recursive(current_dir, base_dir)` seen from
a non-base directory: prune each subdirectory first, then delete the
directory itself (`none`) exactly when nothing remains inside it. -/
def pruneD : Dir → Option Dir
  | .mk n subs files =>
    let subs' := pruneL subs
    if subs'.isEmpty && files.isEmpty then none else some (.mk n subs' files)

def pruneL : List Dir → List Dir
  | [] => []
  | d :: ds =>
    match pruneD d with
    | none => pruneL ds
    | some d' => d' :: pruneL ds

end

/-- `delete_empty_directories_recursive(base_dir, base_dir)`: subtrees are
pruned, but the base directory itself survives the `current_dir !=
base_dir` guard even when it ends up empty. -/
def delete_empty_directories_recursive (d : Dir) : Dir :=
  .mk d.name (pruneL d.subdirs) d.files

mutual

/-- No file anywhere in the subtree. -/
def noFilesD : Dir → Bool
  | .mk _ subs files => files.isEmpty && noFilesL subs

def noFilesL : List Dir → Bool
  | [] => true
  | d :: ds => noFilesD d && noFilesL ds

end

/-- The report-file naming of `generate_report` (lines 128–135): use the
canonical name unless it is already present in the report directory, in
which case use the timestamped name — without re-checking that the
timestamped name is free. -/
def reportFileName (existing : List String) (timestamp : String) : String :=
  if "duplicate_report.json" ∈ existing then "duplicate_report_" ++ timestamp ++ ".json"
  else "duplicate_report.json"

/-- The payload `generate_report` serializes: the group count and the
groups themselves. -/
def reportData (duplicates : List (String × List (List String))) :
    Nat × List (String × List (List String)) :=
  (duplicates.length, duplicates)

/-- First-seen deduplication: the insertion order of
`unique_contents.add(content)` over the stripped non-empty contents. -/
def firstSeenDistinct (l : List String) : List String :=
  l.foldl (fun acc c => if c ∈ acc then acc else acc ++ [c]) []

/-- The content logic of `consolidate_txt_files` (lines 348–366), with
`contents` the raw file contents in iteration order.  The Python `set`
iterates in an unspecified, hash-dependent order; `setOrder` stands for
the order the runtime happens to produce (any permutation of the inserted
elements).  `none` models the "No text data found to consolidate." early
return. -/
def consolidate_txt_files (contents : List String) (setOrder : List String → List String) :
    Option String :=
  let uniq := firstSeenDistinct ((contents.map pyStrip).filter (· ≠ ""))
  if uniq.isEmpty then none
  else some (String.intercalate "\n\n" (setOrder uniq))

/-- The mutually exclusive top-level commands. -/
inductive Cmd : Type where
  | report | move | moveOut | delete | consolidate
deriving DecidableEq

/-- The `--type` resolution block of `main` (lines 419–432): `file` and
`folder` are recognized case-insensitively, a string starting with `.`
becomes an extension filter, and anything else silently falls back to the
command's default (`folder` for `--report`, `file` otherwise). -/
def resolveItemType (cmd : Cmd) (typeArg : Option String) : String × Option String :=
  match typeArg with
  | some t =>
    let ta := pyLower t
    if ta = "file" then ("file", none)
    else if ta = "folder" then ("folder", none)
    else if pyStartsWithDot ta then ("file", some ta)
    else (if cmd = .report then "folder" else "file", none)
  | none => (if cmd = .report then "folder" else "file", none)

/-- The guard `args.type and args.type.lower() == ".txt"` of the
consolidate branch of `main`. -/
def consolidateTypeOk : Option String → Bool
  | some t => pyLower t == ".txt"
  | none => false

/-- The configuration outcome of `main` for a command and `--type`
argument: `--consolidate` additionally rejects (lines 533–537) every type
argument other than `.txt` case-insensitively, exiting with an error
before any filesystem action. -/
def configPhase (cmd : Cmd) (typeArg : Option String) :
    Except String (String × Option String) :=
  let cfg := resolveItemType cmd typeArg
  if cmd = .consolidate && !consolidateTypeOk typeArg then
    .error "Error: The --consolidate command only supports --type .txt."
  else .ok cfg

/-- Association-list lookup, i.e. `results[name]` on the modelled dict. -/
def lookupIdx : List (String × List (List String)) → String → Option (List (List String))
  | [], _ => none
  | (k', vs) :: rest, k => if k' = k then some vs else lookupIdx rest k

/-- The directories eligible for `move_out_last_folder`: visited by the
walk, different from the current directory, and directly containing at
least one file — in walk order. -/
def eligibleDirs (current base : List String) (d : Dir) : List (List String) :=
  ((walkD base d).filter
    (fun e => !(e.1 == current) && !e.2.files.isEmpty)).map Prod.fst

/-- `moveOutScan` restricted to the eligible directories: keep the first
candidate whose depth strictly exceeds the running maximum. -/
def selStep (current : List String) (st : Int × Option (List String)) (p : List String) :
    Int × Option (List String) :=
  if (sepCount p current : Int) > st.1 then ((sepCount p current : Int), some p) else st

/-- Invariant of the `deepest_folder` scan over a processed prefix `xs`:
either nothing eligible has been seen, or the chosen directory is in the
prefix, every earlier eligible directory is strictly shallower, and no
later one is deeper. -/
def SelInv (current : List String) (xs : List (List String)) :
    Int × Option (List String) → Prop
  | (md, none) => xs = [] ∧ md = -1
  | (md, some p) =>
    md = (sepCount p current : Int) ∧
    ∃ pre post, xs = pre ++ p :: post ∧
      (∀ q ∈ pre, (sepCount q current : Int) < md) ∧
      (∀ q ∈ post, (sepCount q current : Int) ≤ md)

/-- One `report` run over an unchanged tree: the chosen file name paired
with the serialized payload. -/
def report_run (base : List String) (d : Dir) (nf ef : Option String)
    (existing : List String) (ts : String) :
    String × (Nat × List (String × List (List String))) :=
  (reportFileName existing ts, reportData (derive_duplicates (scan_files base d nf ef)))

example : resolveDestName ["x.txt"] "x.txt" = "x_1.txt" := rfl

example : resolveDestName ["v1.0"] "v1.0" = "v1_1.0" := rfl

example : resolveFolderDestName ["v1.0"] "v1.0" = "v1.0_1" := rfl

example : resolveDestName ["x.txt", "x_1.txt"] "x.txt" = "x_2.txt" := rfl

example :
    move_out_last_folder ["root"] ["root"]
      (.mk "root" [.mk "p" [.mk "q" [] ["file.txt"]] []] []) = some ["root", "p", "q"] := rfl

example : find_empty_directories ["r"] (.mk "r" [] []) = [["r"]] := rfl

example :
    delete_empty_directories_recursive (.mk "root" [.mk "m" [.mk "n" [] []] []] []) =
      .mk "root" [] [] := rfl

example : configPhase .consolidate (some "txt") =
    .error "Error: The --consolidate command only supports --type .txt." := rfl

example : consolidate_txt_files ["hi", "hi", "bye"] id = some "hi\n\nbye" := rfl

example : consolidate_txt_files ["hi", "hi", "bye"] List.reverse = some "bye\n\nhi" := rfl

theorem indexInsert_flatten_perm (idx : List (String × List (List String))) (k : String)
    (v : List String) :
    ((indexInsert idx k v).map Prod.snd).flatten.Perm ((idx.map Prod.snd).flatten ++ [v]) := by
  induction idx with
  | nil => simp [indexInsert]
  | cons g rest ih =>
    obtain ⟨k', vs⟩ := g
    by_cases h : k' = k
    · simp only [indexInsert, if_pos h, List.map_cons, List.flatten_cons]
      have h1 : (vs ++ [v] ++ (List.map Prod.snd rest).flatten).Perm
          (vs ++ ((List.map Prod.snd rest).flatten ++ [v])) := by
        rw [List.append_assoc]
        exact List.Perm.append_left vs List.perm_append_comm
      rw [← List.append_assoc] at h1
      exact h1
    · simp only [indexInsert, if_neg h, List.map_cons, List.flatten_cons]
      have h1 := List.Perm.append_left vs ih
      rw [← List.append_assoc] at h1
      exact h1

theorem buildIndex_append (es : List (String × List String)) (e : String × List String) :
    buildIndex (es ++ [e]) = indexInsert (buildIndex es) e.1 e.2 := by
  simp [buildIndex, List.foldl_append]

theorem buildIndex_flatten_perm (es : List (String × List String)) :
    (((buildIndex es).map Prod.snd).flatten).Perm (es.map Prod.snd) := by
  induction es using List.reverseRecOn with
  | nil => simp [buildIndex]
  | append_singleton es e ih =>
    rw [buildIndex_append]
    exact (indexInsert_flatten_perm (buildIndex es) e.1 e.2).trans
      (by simpa using ih.append_right [e.2])

theorem lookupIdx_indexInsert (idx : List (String × List (List String))) (k : String)
    (v : List String) (k' : String) :
    lookupIdx (indexInsert idx k v) k' =
      if k' = k then some (((lookupIdx idx k).getD []) ++ [v]) else lookupIdx idx k' := by
  induction idx with
  | nil =>
    by_cases h : k' = k
    · subst h; simp [indexInsert, lookupIdx]
    · have h' : ¬(k = k') := fun hh => h hh.symm
      simp [indexInsert, lookupIdx, h, h']
  | cons g rest ih =>
    obtain ⟨k₀, vs⟩ := g
    by_cases h0 : k₀ = k
    · subst h0
      by_cases h1 : k' = k₀
      · subst h1; simp [indexInsert, lookupIdx]
      · have h1' : ¬(k₀ = k') := fun hh => h1 hh.symm
        simp [indexInsert, lookupIdx, h1, h1']
    · by_cases h1 : k' = k₀
      · subst h1
        have h0' : ¬(k' = k) := h0
        simp [indexInsert, lookupIdx, h0, h0']
      · have h1' : ¬(k₀ = k') := fun hh => h1 hh.symm
        simp [indexInsert, lookupIdx, h0, h1', ih]

theorem lookupIdx_buildIndex (es : List (String × List String)) (k : String) :
    lookupIdx (buildIndex es) k =
      if (es.filter (fun e => e.1 == k)).isEmpty then none
      else some ((es.filter (fun e => e.1 == k)).map Prod.snd) := by
  induction es using List.reverseRecOn with
  | nil => simp [buildIndex, lookupIdx]
  | append_singleton es e ih =>
    rw [buildIndex_append, lookupIdx_indexInsert]
    by_cases h : k = e.1
    · subst h
      have hgd : ((lookupIdx (buildIndex es) e.1).getD []) =
          (es.filter (fun e' => e'.1 == e.1)).map Prod.snd := by
        rw [ih]
        by_cases he : (es.filter (fun e' => e'.1 == e.1)).isEmpty
        · simp [he, List.isEmpty_iff.mp he]
        · simp [he]
      simp [List.filter_append, hgd]
    · have h' : (e.1 == k) = false := by simpa using fun hh => h hh.symm
      have hf : List.filter (fun e' => e'.1 == k) (es ++ [e]) =
          List.filter (fun e' => e'.1 == k) es := by
        simp [List.filter_append, h']
      rw [hf, if_neg h, ih]

theorem indexInsert_keys (idx : List (String × List (List String))) (k : String)
    (v : List String) :
    (indexInsert idx k v).map Prod.fst =
      if k ∈ idx.map Prod.fst then idx.map Prod.fst else idx.map Prod.fst ++ [k] := by
  induction idx with
  | nil => simp [indexInsert]
  | cons g rest ih =>
    obtain ⟨k₀, vs⟩ := g
    by_cases h : k₀ = k
    · subst h
      simp [indexInsert]
    · have h' : ¬(k = k₀) := fun hh => h hh.symm
      by_cases hm : k ∈ rest.map Prod.fst
      · simp [indexInsert, h, ih, hm, h']
      · simp [indexInsert, h, ih, hm, h']

theorem buildIndex_keys_nodup (es : List (String × List String)) :
    ((buildIndex es).map Prod.fst).Nodup := by
  induction es using List.reverseRecOn with
  | nil => simp [buildIndex]
  | append_singleton es e ih =>
    rw [buildIndex_append, indexInsert_keys]
    by_cases hm : e.1 ∈ (buildIndex es).map Prod.fst
    · simpa [hm] using ih
    · rw [if_neg hm]
      refine List.nodup_append.mpr ⟨ih, List.nodup_singleton _, ?_⟩
      intro a ha hb
      simp at hb
      exact hm (hb ▸ ha)

theorem mem_iff_lookupIdx (idx : List (String × List (List String)))
    (h : ((idx.map Prod.fst)).Nodup) (k : String) (ps : List (List String)) :
    (k, ps) ∈ idx ↔ lookupIdx idx k = some ps := by
  induction idx with
  | nil => simp [lookupIdx]
  | cons g rest ih =>
    obtain ⟨k₀, vs⟩ := g
    simp only [List.map_cons, List.nodup_cons] at h
    by_cases hk : k₀ = k
    · subst hk
      simp only [lookupIdx, if_pos rfl, List.mem_cons]
      constructor
      · rintro (heq | hmem)
        · cases heq; rfl
        · exact absurd (List.mem_map_of_mem Prod.fst hmem) h.1
      · intro hsome
        left
        cases hsome
        rfl
    · have hk' : ¬(k₀ = k) := hk
      simp only [lookupIdx, if_neg hk', List.mem_cons]
      rw [← ih h.2]
      constructor
      · rintro (heq | hmem)
        · exact absurd (congrArg Prod.fst heq).symm hk
        · exact hmem
      · exact fun hmem => Or.inr hmem

theorem buildIndex_group_char (es : List (String × List String)) (k : String)
    (ps : List (List String)) (h : (k, ps) ∈ buildIndex es) :
    ps = (es.filter (fun e => e.1 == k)).map Prod.snd := by
  have h1 := (mem_iff_lookupIdx _ (buildIndex_keys_nodup es) k ps).mp h
  rw [lookupIdx_buildIndex] at h1
  by_cases he : (es.filter (fun e => e.1 == k)).isEmpty
  · simp [he] at h1
  · rw [if_neg he] at h1
    exact (Option.some.injEq _ _ ▸ h1).symm

theorem filter_head?_eq_find? (p : α → Bool) (l : List α) :
    (l.filter p).head? = l.find? p := by
  induction l with
  | nil => rfl
  | cons a l ih =>
    by_cases h : p a
    · simp [List.filter_cons, List.find?_cons, h]
    · simp only [Bool.not_eq_true] at h
      simp [List.filter_cons, List.find?_cons, h, ih]

theorem walk_file_entries_mem (base : List String) (d : Dir) (nf ef : Option String)
    (k : String) (p : List String) :
    (k, p) ∈ walk_file_entries base d nf ef ↔
      ∃ e ∈ walkD base d, k ∈ e.2.files ∧ file_keep nf ef k = true ∧ p = e.1 ++ [k] := by
  simp only [walk_file_entries, List.mem_flatten, List.mem_map]
  constructor
  · rintro ⟨l, ⟨e, he, rfl⟩, hm⟩
    obtain ⟨f, hf, heq⟩ := List.mem_map.mp hm
    obtain ⟨hf1, hf2⟩ := List.mem_filter.mp hf
    cases heq
    exact ⟨e, he, hf1, hf2, rfl⟩
  · rintro ⟨e, he, hk, hkeep, rfl⟩
    exact ⟨_, ⟨e, he, rfl⟩, List.mem_map.mpr ⟨k, List.mem_filter.mpr ⟨hk, hkeep⟩, rfl⟩⟩

theorem walk_folder_entries_mem (base : List String) (d : Dir) (nf : Option String)
    (k : String) (p : List String) :
    (k, p) ∈ walk_folder_entries base d nf ↔
      ∃ e ∈ walkD base d, k ∈ e.2.subdirs.map Dir.name ∧ folder_keep nf k = true ∧
        p = e.1 ++ [k] := by
  simp only [walk_folder_entries, List.mem_flatten, List.mem_map]
  constructor
  · rintro ⟨l, ⟨e, he, rfl⟩, hm⟩
    obtain ⟨f, hf, heq⟩ := List.mem_map.mp hm
    obtain ⟨hf1, hf2⟩ := List.mem_filter.mp hf
    cases heq
    exact ⟨e, he, List.mem_map.mp hf1, hf2, rfl⟩
  · rintro ⟨e, he, hk, hkeep, rfl⟩
    exact ⟨_, ⟨e, he, rfl⟩,
      List.mem_map.mpr ⟨k, List.mem_filter.mpr ⟨List.mem_map.mpr hk, hkeep⟩, rfl⟩⟩

theorem scan_files_group_mem (base : List String) (d : Dir) (nf ef : Option String)
    (k : String) (ps : List (List String)) (h : (k, ps) ∈ scan_files base d nf ef)
    (p : List String) (hp : p ∈ ps) :
    ∃ e ∈ walkD base d, k ∈ e.2.files ∧ file_keep nf ef k = true ∧ p = e.1 ++ [k] := by
  have hc := buildIndex_group_char _ _ _ h
  rw [hc] at hp
  obtain ⟨e₀, he₀, rfl⟩ := List.mem_map.mp hp
  obtain ⟨hmem, hbeq⟩ := List.mem_filter.mp he₀
  have hk : e₀.1 = k := by simpa using hbeq
  rw [← hk]
  exact (walk_file_entries_mem base d nf ef e₀.1 e₀.2).mp hmem

theorem scan_folders_group_mem (base : List String) (d : Dir) (nf : Option String)
    (k : String) (ps : List (List String)) (h : (k, ps) ∈ scan_folders base d nf)
    (p : List String) (hp : p ∈ ps) :
    ∃ e ∈ walkD base d, k ∈ e.2.subdirs.map Dir.name ∧ folder_keep nf k = true ∧
      p = e.1 ++ [k] := by
  have hc := buildIndex_group_char _ _ _ h
  rw [hc] at hp
  obtain ⟨e₀, he₀, rfl⟩ := List.mem_map.mp hp
  obtain ⟨hmem, hbeq⟩ := List.mem_filter.mp he₀
  have hk : e₀.1 = k := by simpa using hbeq
  rw [← hk]
  exact (walk_folder_entries_mem base d nf e₀.1 e₀.2).mp hmem

theorem moveStep_fst_source (err : List String → Option String) (st : MoveSt)
    (p : List String) : Outcome.source (moveStep err st p).1 = p := by
  unfold moveStep
  by_cases h : p ∈ st.fs
  · rw [if_pos h]
    cases herr : err p <;> simp [Outcome.source]
  · rw [if_neg h]
    rfl

theorem moveBatch_map_source (err : List String → Option String) :
    ∀ (ps : List (List String)) (st : MoveSt),
      (moveBatch err st ps).map Outcome.source = ps := by
  intro ps
  induction ps with
  | nil => intro st; rfl
  | cons p ps ih =>
    intro st
    simp [moveBatch, moveStep_fst_source, ih]

theorem deleteStep_fst_source (err : List String → Option String) (fs : List (List String))
    (p : List String) : Outcome.source (deleteStep err fs p).1 = p := by
  unfold deleteStep
  by_cases h : p ∈ fs
  · rw [if_pos h]
    cases herr : err p <;> simp [Outcome.source]
  · rw [if_neg h]
    rfl

theorem deleteBatch_map_source (err : List String → Option String) :
    ∀ (ps : List (List String)) (fs : List (List String)),
      (deleteBatch err fs ps).map Outcome.source = ps := by
  intro ps
  induction ps with
  | nil => intro fs; rfl
  | cons p ps ih =>
    intro fs
    simp [deleteBatch, deleteStep_fst_source, ih]

/-- C4: for every tree and every combination of name filter and extension
filter, the index groups every matching entry exactly once — the paths of
all groups together are a permutation of the matching walked entries
(nothing omitted, nothing counted twice), and every path of a group is a
walked occurrence of an entry whose exact base name is the group's key
and which passes the filters; the extension filter compares `splitext`
suffixes case-insensitively.  Both the file scan and the folder scan are
covered. -/
theorem scan_index_groups_exactly_once :
    ∀ (base : List String) (d : Dir) (nf ef : Option String),
      ((((scan_files base d nf ef).map Prod.snd).flatten).Perm
          ((walk_file_entries base d nf ef).map Prod.snd))
      ∧ (∀ (k : String) (ps : List (List String)), (k, ps) ∈ scan_files base d nf ef →
          ∀ p ∈ ps, ∃ e ∈ walkD base d,
            k ∈ e.2.files ∧ file_keep nf ef k = true ∧ p = e.1 ++ [k])
      ∧ ((((scan_folders base d nf).map Prod.snd).flatten).Perm
          ((walk_folder_entries base d nf).map Prod.snd))
      ∧ (∀ (k : String) (ps : List (List String)), (k, ps) ∈ scan_folders base d nf →
          ∀ p ∈ ps, ∃ e ∈ walkD base d,
            k ∈ e.2.subdirs.map Dir.name ∧ folder_keep nf k = true ∧ p = e.1 ++ [k])
      ∧ (∀ (n : Option String) (ext f : String),
          file_keep n (some ext) f = true ↔
            (folder_keep n f = true ∧ pyLower (splitext f).2 = pyLower ext)) := by
  intro base d nf ef
  refine ⟨buildIndex_flatten_perm _, ?_, buildIndex_flatten_perm _, ?_, ?_⟩
  · intro k ps h p hp
    exact scan_files_group_mem base d nf ef k ps h p hp
  · intro k ps h p hp
    exact scan_folders_group_mem base d nf k ps h p hp
  · intro n ext f
    cases n with
    | none => simp [file_keep, folder_keep]
    | some n₀ => simp [file_keep, folder_keep, Bool.and_eq_true]

/-- C4 witness: a concrete instantiation of the group-membership clause on
the tree `r/a/x.txt`. -/
theorem scan_index_groups_exactly_once_witness :
    ∃ e ∈ walkD ["r"] (Dir.mk "r" [Dir.mk "a" [] ["x.txt"]] []),
      "x.txt" ∈ e.2.files ∧ file_keep none (some ".txt") "x.txt" = true ∧
        ["r", "a", "x.txt"] = e.1 ++ ["x.txt"] :=
  (scan_index_groups_exactly_once ["r"] (Dir.mk "r" [Dir.mk "a" [] ["x.txt"]] [])
      none (some ".txt")).2.1 "x.txt" [["r", "a", "x.txt"]] (by decide)
    ["r", "a", "x.txt"] (by decide)

/-- C2: `derive_duplicates` keeps exactly the groups with at least two
paths (and is empty when every group is a singleton); within each group
`paths[0]` is the first walked occurrence of the name (`head?` equals the
first matching entry of the walk), and the move batch over duplicates
processes exactly `paths[1:]` of each group, in order. -/
theorem derive_duplicates_policy :
    (∀ (idx : List (String × List (List String))) (g : String × List (List String)),
      g ∈ derive_duplicates idx ↔ g ∈ idx ∧ 2 ≤ g.2.length)
    ∧ (∀ idx : List (String × List (List String)),
        (∀ g ∈ idx, g.2.length ≤ 1) → derive_duplicates idx = [])
    ∧ (∀ (base : List String) (d : Dir) (nf ef : Option String) (k : String)
        (ps : List (List String)), (k, ps) ∈ scan_files base d nf ef →
          ps.head? = ((walk_file_entries base d nf ef).find? (fun e => e.1 == k)).map
            Prod.snd)
    ∧ (∀ (base : List String) (d : Dir) (nf : Option String) (k : String)
        (ps : List (List String)), (k, ps) ∈ scan_folders base d nf →
          ps.head? = ((walk_folder_entries base d nf).find? (fun e => e.1 == k)).map
            Prod.snd)
    ∧ (∀ (dups : List (String × List (List String))) (err : List String → Option String)
        (st : MoveSt),
        (move_duplicates dups err st).map Outcome.source =
          (dups.map (fun g => g.2.drop 1)).flatten) := by
  refine ⟨?_, ?_, ?_, ?_, ?_⟩
  · intro idx g
    rw [derive_duplicates, List.mem_filter]
    simp only [decide_eq_true_eq]
    exact and_congr_right fun _ => by omega
  · intro idx h
    apply List.filter_eq_nil_iff.mpr
    intro g hg
    have := h g hg
    simp only [decide_eq_true_eq]
    omega
  · intro base d nf ef k ps h
    rw [buildIndex_group_char _ _ _ h, List.head?_map, filter_head?_eq_find?]
  · intro base d nf k ps h
    rw [buildIndex_group_char _ _ _ h, List.head?_map, filter_head?_eq_find?]
  · intro dups err st
    exact moveBatch_map_source err _ st

/-- C2 witness: concrete instantiation of the `head?` clause — the
retained original of the `x.txt` group is the first walked occurrence. -/
theorem derive_duplicates_policy_witness :
    ([["r", "a", "x.txt"], ["r", "b", "x.txt"]] : List (List String)).head? =
      ((walk_file_entries ["r"]
          (Dir.mk "r" [Dir.mk "a" [] ["x.txt"], Dir.mk "b" [] ["x.txt"]] []) none
          (some ".txt")).find? (fun e => e.1 == "x.txt")).map Prod.snd :=
  derive_duplicates_policy.2.2.1 ["r"]
    (Dir.mk "r" [Dir.mk "a" [] ["x.txt"], Dir.mk "b" [] ["x.txt"]] []) none (some ".txt")
    "x.txt" [["r", "a", "x.txt"], ["r", "b", "x.txt"]] (by decide)

/-- C8: every item of a move or delete batch yields exactly one outcome,
in input order (no item's failure aborts the rest); a missing source
yields `skippedMissing`, not a failure, and leaves the state unchanged;
a per-item error yields `failed` for that item only, with the remainder
of the batch processed from an unchanged state. -/
theorem batch_per_item_isolation :
    (∀ (err : List String → Option String) (st : MoveSt) (ps : List (List String)),
      (moveBatch err st ps).map Outcome.source = ps)
    ∧ (∀ (err : List String → Option String) (fs ps : List (List String)),
      (deleteBatch err fs ps).map Outcome.source = ps)
    ∧ (∀ (err : List String → Option String) (st : MoveSt) (p : List String)
        (ps : List (List String)), p ∉ st.fs →
        moveBatch err st (p :: ps) = .skippedMissing p :: moveBatch err st ps)
    ∧ (∀ (err : List String → Option String) (st : MoveSt) (p : List String)
        (ps : List (List String)) (c : String), p ∈ st.fs → err p = some c →
        moveBatch err st (p :: ps) = .failed p c :: moveBatch err st ps)
    ∧ (∀ (err : List String → Option String) (fs : List (List String)) (p : List String)
        (ps : List (List String)), p ∉ fs →
        deleteBatch err fs (p :: ps) = .skippedMissing p :: deleteBatch err fs ps)
    ∧ (∀ (err : List String → Option String) (fs : List (List String)) (p : List String)
        (ps : List (List String)) (c : String), p ∈ fs → err p = some c →
        deleteBatch err fs (p :: ps) = .failed p c :: deleteBatch err fs ps) := by
  refine ⟨fun err st ps => moveBatch_map_source err ps st,
    fun err fs ps => deleteBatch_map_source err ps fs, ?_, ?_, ?_, ?_⟩
  · intro err st p ps h
    simp [moveBatch, moveStep, if_neg h]
  · intro err st p ps c h hc
    simp [moveBatch, moveStep, if_pos h, hc]
  · intro err fs p ps h
    simp [deleteBatch, deleteStep, if_neg h]
  · intro err fs p ps c h hc
    simp [deleteBatch, deleteStep, if_pos h, hc]

/-- C8 witness: a missing source in a concrete batch is skipped and the
next item is still deleted. -/
theorem batch_per_item_isolation_witness :
    deleteBatch (fun _ => none) [["b"]] ([["a"], ["b"]]) =
      Outcome.skippedMissing ["a"] :: deleteBatch (fun _ => none) [["b"]] [["b"]] :=
  batch_per_item_isolation.2.2.2.2.1 (fun _ => none) [["b"]] ["a"] [["b"]] (by decide)

mutual

theorem pruneD_none_iff (d : Dir) : pruneD d = none ↔ noFilesD d = true := by
  cases d with
  | mk n subs files =>
    simp only [pruneD, noFilesD]
    constructor
    · intro h
      by_cases hf : files.isEmpty
      · by_cases hs : (pruneL subs).isEmpty
        · simp [hf, (pruneL_nil_iff subs).mp (List.isEmpty_iff.mp hs)]
        · simp [hf, hs] at h
      · simp [hf] at h
    · intro h
      have hf : files.isEmpty = true := by
        cases files <;> simp_all
      have hs : noFilesL subs = true := by
        cases hfl : files.isEmpty <;> simp_all
      have : pruneL subs = [] := (pruneL_nil_iff subs).mpr hs
      simp [this, hf]

theorem pruneL_nil_iff (ds : List Dir) : pruneL ds = [] ↔ noFilesL ds = true := by
  cases ds with
  | nil => simp [pruneL, noFilesL]
  | cons d ds =>
    simp only [pruneL, noFilesL]
    cases h : pruneD d with
    | none =>
      have := (pruneD_none_iff d).mp h
      simp [this, pruneL_nil_iff ds]
    | some d' =>
      have hne : ¬(pruneD d = none) := by simp [h]
      have hnd : ¬(noFilesD d = true) := fun hc => hne ((pruneD_none_iff d).mpr hc)
      simp [hnd]

end

theorem pruneL_eq_filterMap (ds : List Dir) : pruneL ds = ds.filterMap pruneD := by
  induction ds with
  | nil => rfl
  | cons d ds ih =>
    simp only [pruneL, List.filterMap_cons]
    cases h : pruneD d <;> simp [ih]

/-- C5: pruning is bottom-up and complete — each directory's subtrees are
pruned independently before the directory itself is considered
(`pruneL ds = ds.filterMap pruneD`), and a directory is removed exactly
when its whole subtree holds no file, so a directory that becomes empty
only after its empty children are removed is removed too; the protected
base directory always survives, keeping its name and files, even when the
cascade empties it entirely. -/
theorem prune_empty_bottom_up :
    (∀ d : Dir, pruneD d = none ↔ noFilesD d = true)
    ∧ (∀ ds : List Dir, pruneL ds = ds.filterMap pruneD)
    ∧ (∀ d : Dir, (delete_empty_directories_recursive d).name = d.name ∧
        (delete_empty_directories_recursive d).files = d.files)
    ∧ (∀ d : Dir, noFilesD d = true →
        delete_empty_directories_recursive d = .mk d.name [] d.files) := by
  refine ⟨pruneD_none_iff, pruneL_eq_filterMap, ?_, ?_⟩
  · intro d
    cases d
    exact ⟨rfl, rfl⟩
  · intro d h
    cases d with
    | mk n subs files =>
      simp only [noFilesD] at h
      have hs : noFilesL subs = true := by
        cases hfl : files.isEmpty <;> simp_all
      simp [delete_empty_directories_recursive, Dir.name, Dir.files, Dir.subdirs,
        (pruneL_nil_iff subs).mpr hs]

/-- C5 witness: Scenario E — `root/m/n`, both `m` and `n` empty: the
cascade removes `n` then `m`, but the base `root` survives. -/
theorem prune_empty_bottom_up_witness :
    delete_empty_directories_recursive (Dir.mk "root" [Dir.mk "m" [Dir.mk "n" [] []] []] []) =
      Dir.mk "root" [] [] :=
  prune_empty_bottom_up.2.2.2 (Dir.mk "root" [Dir.mk "m" [Dir.mk "n" [] []] []] []) (by decide)

/-- C6 counterexample: on an empty scan root, `find_empty_directories`
returns the scan root itself — `os.walk` yields the base directory as its
first visited directory, so the root is among the returned directories,
contrary to the claim. -/
theorem find_empty_includes_root_cex :
    find_empty_directories ["r"] (Dir.mk "r" [] []) = [["r"]] ∧
      ["r"] ∈ find_empty_directories ["r"] (Dir.mk "r" [] []) := by
  exact ⟨rfl, by decide⟩

/-- C6 amended: `find_empty_directories` returns exactly the visited
directories — the scan root included, since `os.walk` yields it — that
have no files and no subdirectories directly inside them; the scan root
is always a visited directory. -/
theorem find_empty_exact_amended :
    ∀ (base : List String) (d : Dir),
      ((base, d) ∈ walkD base d)
      ∧ (∀ p : List String, p ∈ find_empty_directories base d ↔
          ∃ t : Dir, (p, t) ∈ walkD base d ∧ t.subdirs = [] ∧ t.files = []) := by
  intro base d
  constructor
  · cases d
    exact List.mem_cons_self _ _
  · intro p
    unfold find_empty_directories
    rw [List.mem_filterMap]
    constructor
    · rintro ⟨e, he, hsome⟩
      by_cases hc : e.2.subdirs.isEmpty && e.2.files.isEmpty
      · rw [if_pos hc] at hsome
        cases hsome
        obtain ⟨h1, h2⟩ := Bool.and_eq_true .. |>.mp hc
        exact ⟨e.2, he, List.isEmpty_iff.mp h1, List.isEmpty_iff.mp h2⟩
      · rw [if_neg hc] at hsome
        cases hsome
    · rintro ⟨t, ht, h1, h2⟩
      refine ⟨(p, t), ht, ?_⟩
      rw [if_pos]
      simp [h1, h2, List.isEmpty_iff]

theorem resolveCounter_spec (dest : List String) (base ext : String) :
    ∀ (fuel c : Nat),
      (∃ j, c ≤ j ∧ j < c + fuel ∧ candName base ext j ∉ dest) →
      candName base ext (resolveCounter dest base ext fuel c) ∉ dest ∧
      c ≤ resolveCounter dest base ext fuel c ∧
      ∀ j, c ≤ j → j < resolveCounter dest base ext fuel c → candName base ext j ∈ dest := by
  intro fuel
  induction fuel with
  | zero =>
    intro c h
    obtain ⟨j, h1, h2, _⟩ := h
    omega
  | succ fuel ih =>
    intro c h
    by_cases hc : candName base ext c ∈ dest
    · rw [resolveCounter, if_pos hc]
      have h' : ∃ j, c + 1 ≤ j ∧ j < c + 1 + fuel ∧ candName base ext j ∉ dest := by
        obtain ⟨j, h1, h2, h3⟩ := h
        refine ⟨j, ?_, by omega, h3⟩
        rcases Nat.eq_or_lt_of_le h1 with heq | hlt
        · exact absurd hc (heq ▸ h3)
        · omega
      obtain ⟨r1, r2, r3⟩ := ih (c + 1) h'
      refine ⟨r1, by omega, ?_⟩
      intro j hj1 hj2
      rcases Nat.eq_or_lt_of_le hj1 with heq | hlt
      · exact heq ▸ hc
      · exact r3 j hlt hj2
    · rw [resolveCounter, if_neg hc]
      exact ⟨hc, le_refl c, fun j h1 h2 => absurd (Nat.lt_of_le_of_lt h1 h2)
        (Nat.lt_irrefl c)⟩

/-- C1 counterexample: `move_duplicates` applies `os.path.splitext` to the
base name regardless of kind, so when `main` runs it in folder mode on a
directory named `v1.0` whose name is already taken at the destination,
the chosen name is `v1_1.0` — the counter lands before the dotted tail,
not after the full directory name as the claim states (`v1.0_1`). -/
theorem move_duplicates_folder_suffix_cex :
    move_duplicates [("v1.0", [["r", "v1.0"], ["s", "v1.0"]])] (fun _ => none)
        ⟨[["r", "v1.0"], ["s", "v1.0"]], ["v1.0"]⟩ =
      [Outcome.moved ["s", "v1.0"] "v1_1.0"] ∧ "v1_1.0" ≠ "v1.0_1" :=
  ⟨rfl, by decide⟩

/-- C1 amended: the movers never pick an occupied destination name — a
free source name is kept as is, and an occupied one gets the smallest
numeric suffix (counting from 1) that yields a free name; in
`move_duplicates`/`move_all_items` the suffix is inserted before the
`splitext` extension of the base name regardless of the item's kind (so a
directory name containing a dot is split too), while only
`move_out_last_folder` appends it after the full directory name.  The
existence hypotheses say that some candidate within the model's fuel
window is free — always true of the real loop, which runs until a free
name appears. -/
theorem move_collision_suffix_amended :
    ∀ (dest : List String) (src : String),
      (∃ j, 1 ≤ j ∧ j < dest.length + 2 ∧
        candName (splitext src).1 (splitext src).2 j ∉ dest) →
      (∃ j, 1 ≤ j ∧ j < dest.length + 2 ∧ candName src "" j ∉ dest) →
      (resolveDestName dest src ∉ dest ∧ resolveFolderDestName dest src ∉ dest)
      ∧ (src ∉ dest →
          resolveDestName dest src = src ∧ resolveFolderDestName dest src = src)
      ∧ (src ∈ dest →
          (∃ c, 1 ≤ c ∧
            resolveDestName dest src = candName (splitext src).1 (splitext src).2 c ∧
            candName (splitext src).1 (splitext src).2 c ∉ dest ∧
            ∀ j, 1 ≤ j → j < c → candName (splitext src).1 (splitext src).2 j ∈ dest) ∧
          (∃ c, 1 ≤ c ∧ resolveFolderDestName dest src = candName src "" c ∧
            candName src "" c ∉ dest ∧
            ∀ j, 1 ≤ j → j < c → candName src "" j ∈ dest)) := by
  intro dest src h1 h2
  have w1 : ∃ j, 1 ≤ j ∧ j < 1 + (dest.length + 1) ∧
      candName (splitext src).1 (splitext src).2 j ∉ dest := by
    obtain ⟨j, a, b, c⟩ := h1
    exact ⟨j, a, by omega, c⟩
  have w2 : ∃ j, 1 ≤ j ∧ j < 1 + (dest.length + 1) ∧ candName src "" j ∉ dest := by
    obtain ⟨j, a, b, c⟩ := h2
    exact ⟨j, a, by omega, c⟩
  have s1 := resolveCounter_spec dest (splitext src).1 (splitext src).2
    (dest.length + 1) 1 w1
  have s2 := resolveCounter_spec dest src "" (dest.length + 1) 1 w2
  by_cases hs : src ∈ dest
  · refine ⟨⟨?_, ?_⟩, fun hn => absurd hs hn, fun _ => ⟨?_, ?_⟩⟩
    · rw [resolveDestName, if_pos hs]
      exact s1.1
    · rw [resolveFolderDestName, if_pos hs]
      exact s2.1
    · exact ⟨_, s1.2.1, by rw [resolveDestName, if_pos hs], s1.1, s1.2.2⟩
    · exact ⟨_, s2.2.1, by rw [resolveFolderDestName, if_pos hs], s2.1, s2.2.2⟩
  · refine ⟨⟨?_, ?_⟩, fun _ => ⟨?_, ?_⟩, fun hm => absurd hm hs⟩ <;>
      simp [resolveDestName, resolveFolderDestName, hs]

/-- C1 witness: a concrete collision — destination already holds `x.txt`,
the mover picks `x_1.txt`, which is free. -/
theorem move_collision_suffix_amended_witness :
    resolveDestName ["x.txt"] "x.txt" ∉ ["x.txt"] ∧
      resolveFolderDestName ["x.txt"] "x.txt" ∉ ["x.txt"] :=
  (move_collision_suffix_amended ["x.txt"] "x.txt" ⟨1, by decide⟩ ⟨1, by decide⟩).1

theorem firstSeen_foldl_mem (l : List String) :
    ∀ (acc : List String) (a : String),
      a ∈ l.foldl (fun acc c => if c ∈ acc then acc else acc ++ [c]) acc ↔
        a ∈ acc ∨ a ∈ l := by
  induction l with
  | nil => intro acc a; simp
  | cons c l ih =>
    intro acc a
    by_cases hc : c ∈ acc
    · rw [List.foldl_cons, if_pos hc, ih]
      constructor
      · rintro (h | h)
        · exact Or.inl h
        · exact Or.inr (List.mem_cons_of_mem c h)
      · rintro (h | h)
        · exact Or.inl h
        · rcases List.mem_cons.mp h with rfl | h
          · exact Or.inl hc
          · exact Or.inr h
    · rw [List.foldl_cons, if_neg hc, ih]
      constructor
      · rintro (h | h)
        · rcases List.mem_append.mp h with h | h
          · exact Or.inl h
          · simp at h
            exact Or.inr (h ▸ List.mem_cons_self c l)
        · exact Or.inr (List.mem_cons_of_mem c h)
      · rintro (h | h)
        · exact Or.inl (List.mem_append.mpr (Or.inl h))
        · rcases List.mem_cons.mp h with rfl | h
          · exact Or.inl (List.mem_append.mpr (Or.inr (by simp)))
          · exact Or.inr h

theorem firstSeen_foldl_nodup (l : List String) :
    ∀ acc : List String, acc.Nodup →
      (l.foldl (fun acc c => if c ∈ acc then acc else acc ++ [c]) acc).Nodup := by
  induction l with
  | nil => intro acc h; simpa
  | cons c l ih =>
    intro acc h
    by_cases hc : c ∈ acc
    · rw [List.foldl_cons, if_pos hc]
      exact ih acc h
    · rw [List.foldl_cons, if_neg hc]
      refine ih (acc ++ [c]) ?_
      refine List.nodup_append.mpr ⟨h, List.nodup_singleton c, ?_⟩
      intro a ha hb
      simp at hb
      exact hc (hb ▸ ha)

theorem firstSeenDistinct_nodup (l : List String) : (firstSeenDistinct l).Nodup :=
  firstSeen_foldl_nodup l [] List.nodup_nil

theorem firstSeenDistinct_mem (l : List String) (a : String) :
    a ∈ firstSeenDistinct l ↔ a ∈ l := by
  unfold firstSeenDistinct
  rw [firstSeen_foldl_mem]
  simp

/-- C3 counterexample: the Python `set` that deduplicates contents has no
specified iteration order, so the artifact is not in first-seen order —
with contents `"hi"`, `"hi"`, `"bye"` and a legitimate set order (here the
reversal, a permutation of the inserted values), the artifact is
`"bye\n\nhi"`, not the `"hi\n\nbye"` the claim requires. -/
theorem consolidate_first_seen_order_cex :
    consolidate_txt_files ["hi", "hi", "bye"] List.reverse = some "bye\n\nhi" ∧
      (List.reverse ["hi", "bye"]).Perm ["hi", "bye"] ∧ "bye\n\nhi" ≠ "hi\n\nbye" :=
  ⟨rfl, by decide, by decide⟩

/-- C3 amended: for every set-iteration order (any permutation of the
inserted elements), the consolidated artifact is the blank-line join of a
duplicate-free permutation of the distinct non-empty stripped contents —
each such content appears exactly once, but in an unspecified order, not
necessarily the order first seen; no artifact is produced exactly when no
non-empty stripped content exists. -/
theorem consolidate_distinct_contents_amended :
    ∀ (contents : List String) (setOrder : List String → List String),
      (∀ l, (setOrder l).Perm l) →
      (consolidate_txt_files contents setOrder = none ↔
        firstSeenDistinct ((contents.map pyStrip).filter (· ≠ "")) = [])
      ∧ (∀ s, consolidate_txt_files contents setOrder = some s →
          ∃ l, l.Perm (firstSeenDistinct ((contents.map pyStrip).filter (· ≠ ""))) ∧
            l.Nodup ∧ (∀ c ∈ l, c ≠ "" ∧ ∃ c₀ ∈ contents, c = pyStrip c₀) ∧
            s = String.intercalate "\n\n" l) := by
  intro contents setOrder hperm
  constructor
  · unfold consolidate_txt_files
    by_cases he : (firstSeenDistinct ((contents.map pyStrip).filter (· ≠ ""))).isEmpty
    · simp [he, List.isEmpty_iff.mp he]
    · rw [if_neg he]
      constructor
      · intro h
        exact Option.noConfusion h
      · intro h
        exact absurd (List.isEmpty_iff.mpr h) he
  · intro s hs
    unfold consolidate_txt_files at hs
    by_cases he : (firstSeenDistinct ((contents.map pyStrip).filter (· ≠ ""))).isEmpty
    · rw [if_pos he] at hs
      cases hs
    · rw [if_neg he] at hs
      refine ⟨setOrder (firstSeenDistinct ((contents.map pyStrip).filter (· ≠ ""))),
        hperm _, ?_, ?_, ?_⟩
      · exact ((hperm _).nodup_iff).mpr (firstSeenDistinct_nodup _)
      · intro c hc
        have hc' : c ∈ firstSeenDistinct ((contents.map pyStrip).filter (· ≠ "")) :=
          (hperm _).subset hc
        rw [firstSeenDistinct_mem] at hc'
        obtain ⟨hmem, hne⟩ := List.mem_filter.mp hc'
        obtain ⟨c₀, hc₀, rfl⟩ := List.mem_map.mp hmem
        exact ⟨by simpa using hne, c₀, hc₀, rfl⟩
      · exact (Option.some.injEq _ _ ▸ hs).symm

/-- C3 witness: with the identity set order, the artifact over contents
`"hi"`, `"hi"`, `"bye"` is the blank-line join of a duplicate-free
permutation of the distinct contents. -/
theorem consolidate_distinct_contents_amended_witness :
    ∃ l, l.Perm (firstSeenDistinct (((["hi", "hi", "bye"] : List String).map pyStrip).filter
        (· ≠ ""))) ∧
      l.Nodup ∧ (∀ c ∈ l, c ≠ "" ∧ ∃ c₀ ∈ (["hi", "hi", "bye"] : List String),
        c = pyStrip c₀) ∧
      "hi\n\nbye" = String.intercalate "\n\n" l :=
  (consolidate_distinct_contents_amended ["hi", "hi", "bye"] id
    (fun l => List.Perm.refl l)).2 "hi\n\nbye" rfl

/-- C7 counterexample: the timestamped name is chosen without re-checking
that it is free — when the canonical report already exists and an
artifact from the same clock second also exists, `generate_report` picks
that very path and overwrites it, so the naming rule does not guarantee
never overwriting an existing artifact. -/
theorem report_naming_overwrite_cex :
    reportFileName ["duplicate_report.json", "duplicate_report_20240101120000.json"]
        "20240101120000" = "duplicate_report_20240101120000.json" ∧
      reportFileName ["duplicate_report.json", "duplicate_report_20240101120000.json"]
        "20240101120000" ∈
        ["duplicate_report.json", "duplicate_report_20240101120000.json"] :=
  ⟨rfl, by decide⟩

/-- C7 amended: a second `report` run over the unmutated tree produces a
payload identical to the first run's (the payload depends only on the
scanned tree) under the timestamp-derived name, which always differs from
the canonical name; the canonical artifact is therefore never
overwritten, and a fresh canonical name is only used when it is free —
but a timestamped artifact written by another run in the same clock
second can be overwritten, since the timestamped name is not checked. -/
theorem report_naming_amended :
    ∀ (existing : List String) (ts : String) (base : List String) (d : Dir)
      (nf ef : Option String) (e₂ : List String) (t₂ : String),
      ("duplicate_report.json" ∈ existing →
        reportFileName existing ts = "duplicate_report_" ++ ts ++ ".json" ∧
        reportFileName existing ts ≠ "duplicate_report.json")
      ∧ ("duplicate_report.json" ∉ existing →
          reportFileName existing ts = "duplicate_report.json" ∧
          reportFileName existing ts ∉ existing)
      ∧ (report_run base d nf ef existing ts).2 = (report_run base d nf ef e₂ t₂).2 := by
  intro existing ts base d nf ef e₂ t₂
  refine ⟨?_, ?_, rfl⟩
  · intro h
    rw [reportFileName, if_pos h]
    refine ⟨rfl, ?_⟩
    intro hc
    have h2 := congrArg String.length hc
    rw [String.length_append, String.length_append] at h2
    have e1 : ("duplicate_report_").length = 17 := rfl
    have e2 : (".json").length = 5 := rfl
    have e3 : ("duplicate_report.json").length = 21 := rfl
    omega
  · intro h
    rw [reportFileName, if_neg h]
    exact ⟨rfl, h⟩

/-- C7 witness: after a first run wrote the canonical artifact, the second
run's name is the timestamped one and differs from the canonical name. -/
theorem report_naming_amended_witness :
    reportFileName ["duplicate_report.json"] "20240101120000" =
      "duplicate_report_" ++ "20240101120000" ++ ".json" ∧
    reportFileName ["duplicate_report.json"] "20240101120000" ≠ "duplicate_report.json" :=
  (report_naming_amended ["duplicate_report.json"] "20240101120000" [] (Dir.mk "" [] [])
    none none [] "").1 (by decide)

/-- C10 counterexample: a type argument without a leading dot does raise a
configuration error for one command — `--consolidate --type txt` is
rejected with an error before any filesystem action, so the fallback is
not silent for every command. -/
theorem consolidate_type_config_error_cex :
    configPhase Cmd.consolidate (some "txt") =
      Except.error "Error: The --consolidate command only supports --type .txt." := rfl

/-- C10 amended: for every command other than `consolidate`, a type
argument that is neither `file` nor `folder` case-insensitively and does
not begin with a dot raises no configuration error and silently resolves
to the same configuration as an absent type argument — the command's
default item type (`folder` for `report`, `file` otherwise) with no
extension filter, under which every file matches regardless of extension;
`consolidate`, however, rejects every such type argument as a
configuration error. -/
theorem type_fallback_amended :
    ∀ (cmd : Cmd) (t : String),
      cmd ≠ Cmd.consolidate → pyLower t ≠ "file" → pyLower t ≠ "folder" →
      pyStartsWithDot (pyLower t) = false →
      configPhase cmd (some t) = .ok (resolveItemType cmd none) ∧
      resolveItemType cmd (some t) =
        ((if cmd = Cmd.report then "folder" else "file"), none) ∧
      (∀ f, file_keep none none f = true) := by
  intro cmd t hcmd h1 h2 h3
  have hres : resolveItemType cmd (some t) =
      ((if cmd = Cmd.report then "folder" else "file"), none) := by
    simp [resolveItemType, h1, h2, h3]
  refine ⟨?_, hres, fun f => rfl⟩
  have hok : configPhase cmd (some t) = .ok (resolveItemType cmd (some t)) := by
    unfold configPhase
    have hnc : (decide (cmd = Cmd.consolidate) && !consolidateTypeOk (some t)) = false := by
      simp [hcmd]
    simp [hnc]
  rw [hok, hres]
  rfl

/-- C10 witness: `--move --type txt` silently resolves to the same
configuration as giving no type at all. -/
theorem type_fallback_amended_witness :
    configPhase Cmd.move (some "txt") = .ok (resolveItemType Cmd.move none) :=
  (type_fallback_amended Cmd.move "txt" (by decide) (by decide) (by decide) (by decide)).1

theorem moveOutScan_step (current : List String) (st : Int × Option (List String))
    (e : List String × Dir) :
    moveOutScan current st e =
      if (!(e.1 == current) && !e.2.files.isEmpty) then selStep current st e.1 else st := by
  unfold moveOutScan selStep
  by_cases h1 : e.1 = current
  · simp [h1]
  · by_cases h2 : e.2.files.isEmpty
    · simp [h1, h2]
    · simp [h1, h2]

theorem foldl_moveOutScan (current : List String) :
    ∀ (L : List (List String × Dir)) (st : Int × Option (List String)),
      L.foldl (moveOutScan current) st =
        ((L.filter (fun e => !(e.1 == current) && !e.2.files.isEmpty)).map
          Prod.fst).foldl (selStep current) st := by
  intro L
  induction L with
  | nil => intro st; rfl
  | cons e L ih =>
    intro st
    rw [List.foldl_cons, moveOutScan_step, List.filter_cons]
    by_cases hc : (!(e.1 == current) && !e.2.files.isEmpty) = true
    · rw [if_pos hc, if_pos hc, List.map_cons, List.foldl_cons]
      exact ih _
    · rw [if_neg hc, if_neg hc]
      exact ih st

theorem selFold_inv (current : List String) :
    ∀ xs : List (List String), SelInv current xs (xs.foldl (selStep current) (-1, none)) := by
  intro xs
  induction xs using List.reverseRecOn with
  | nil => exact ⟨rfl, rfl⟩
  | append_singleton xs x ih =>
    rw [List.foldl_append, List.foldl_cons, List.foldl_nil]
    rcases hst : xs.foldl (selStep current) (-1, none) with ⟨md, best⟩
    rw [hst] at ih
    cases best with
    | none =>
      obtain ⟨hxs, hmd⟩ := ih
      subst hxs
      subst hmd
      have hgt : ((sepCount x current : Int)) > (-1 : Int) := by
        have := Int.natCast_nonneg (sepCount x current)
        omega
      unfold selStep
      rw [if_pos hgt]
      exact ⟨rfl, [], [], rfl, fun q hq => absurd hq (List.not_mem_nil q),
        fun q hq => absurd hq (List.not_mem_nil q)⟩
    | some p =>
      obtain ⟨hmd, pre, post, hxs, hpre, hpost⟩ := ih
      by_cases hgt : ((sepCount x current : Int)) > md
      · unfold selStep
        rw [if_pos hgt]
        refine ⟨rfl, xs, [], rfl, ?_, fun q hq => absurd hq (List.not_mem_nil q)⟩
        intro q hq
        rw [hxs] at hq
        rcases List.mem_append.mp hq with h | h
        · have := hpre q h
          omega
        · rcases List.mem_cons.mp h with rfl | h
          · omega
          · have := hpost q h
            omega
      · unfold selStep
        rw [if_neg hgt]
        refine ⟨hmd, pre, post ++ [x], by rw [hxs, List.append_assoc]; rfl, hpre, ?_⟩
        intro q hq
        rcases List.mem_append.mp hq with h | h
        · exact hpost q h
        · rcases List.mem_cons.mp h with rfl | h
          · omega
          · exact absurd h (List.not_mem_nil q)

theorem move_out_eq (current base : List String) (d : Dir) :
    move_out_last_folder current base d =
      ((eligibleDirs current base d).foldl (selStep current) (-1, none)).2 := by
  unfold move_out_last_folder eligibleDirs
  rw [foldl_moveOutScan]

/-- C9: `move_out_last_folder` considers exactly the walked directories
that differ from the current (invocation) directory and directly contain
at least one file; when any exist it returns the one whose `relpath`
separator distance from the current directory is greatest, and among
equally deep candidates the first one in walk order wins — every earlier
eligible directory is strictly shallower and no later one is deeper;
when none exist it returns nothing. -/
theorem move_out_deepest_first :
    ∀ (current base : List String) (d : Dir),
      (∀ q : List String, q ∈ eligibleDirs current base d ↔
        ∃ t : Dir, (q, t) ∈ walkD base d ∧ q ≠ current ∧ t.files ≠ [])
      ∧ (move_out_last_folder current base d = none ↔ eligibleDirs current base d = [])
      ∧ (∀ p, move_out_last_folder current base d = some p →
          p ∈ eligibleDirs current base d ∧
          (∀ q ∈ eligibleDirs current base d, sepCount q current ≤ sepCount p current) ∧
          ∃ pre post, eligibleDirs current base d = pre ++ p :: post ∧
            (∀ q ∈ pre, sepCount q current < sepCount p current) ∧
            (∀ q ∈ post, sepCount q current ≤ sepCount p current)) := by
  intro current base d
  refine ⟨?_, ?_, ?_⟩
  · intro q
    unfold eligibleDirs
    rw [List.mem_map]
    constructor
    · rintro ⟨e, he, rfl⟩
      obtain ⟨hw, hb⟩ := List.mem_filter.mp he
      rw [Bool.and_eq_true] at hb
      obtain ⟨hb1, hb2⟩ := hb
      refine ⟨e.2, hw, ?_, ?_⟩
      · intro hq
        rw [Bool.not_eq_true'] at hb1
        exact absurd (beq_iff_eq.mpr hq) (by simp [hb1])
      · intro hq
        rw [Bool.not_eq_true'] at hb2
        rw [hq] at hb2
        simp at hb2
    · rintro ⟨t, ht, hne, hfe⟩
      refine ⟨(q, t), List.mem_filter.mpr ⟨ht, ?_⟩, rfl⟩
      rw [Bool.and_eq_true, Bool.not_eq_true', Bool.not_eq_true']
      constructor
      · exact beq_eq_false_iff_ne.mpr hne
      · cases hfl : t.files with
        | nil => exact absurd hfl hfe
        | cons a l => rfl
  · rw [move_out_eq]
    have inv := selFold_inv current (eligibleDirs current base d)
    rcases hst : (eligibleDirs current base d).foldl (selStep current) (-1, none) with
      ⟨md, best⟩
    rw [hst] at inv
    cases best with
    | none =>
      obtain ⟨hxs, _⟩ := inv
      simp [hxs]
    | some p =>
      obtain ⟨hmd, pre, post, hxs, _, _⟩ := inv
      constructor
      · intro h
        exact Option.noConfusion h
      · intro h
        rw [h] at hxs
        exact absurd hxs.symm (List.append_ne_nil_of_right_ne_nil pre
          (List.cons_ne_nil p post))
  · intro p hp
    rw [move_out_eq] at hp
    have inv := selFold_inv current (eligibleDirs current base d)
    rcases hst : (eligibleDirs current base d).foldl (selStep current) (-1, none) with
      ⟨md, best⟩
    rw [hst] at inv
    rw [hst] at hp
    cases best with
    | none => exact Option.noConfusion hp
    | some p' =>
      have hpp : p' = p := Option.some.injEq p' p ▸ hp
      subst hpp
      obtain ⟨hmd, pre, post, hxs, hpre, hpost⟩ := inv
      refine ⟨?_, ?_, pre, post, hxs, ?_, ?_⟩
      · rw [hxs]
        exact List.mem_append.mpr (Or.inr (List.mem_cons_self _ _))
      · intro q hq
        rw [hxs] at hq
        rcases List.mem_append.mp hq with h | h
        · have := hpre q h
          omega
        · rcases List.mem_cons.mp h with rfl | h
          · exact le_refl _
          · have := hpost q h
            omega
      · intro q hq
        have := hpre q hq
        omega
      · intro q hq
        have := hpost q hq
        omega

/-- C9 witness: Scenario D — on `root/p/q/file.txt` with the invocation
directory as the scan base, `q` is the unique eligible directory and is
selected. -/
theorem move_out_deepest_first_witness :
    ["root", "p", "q"] ∈ eligibleDirs ["root"] ["root"]
        (Dir.mk "root" [Dir.mk "p" [Dir.mk "q" [] ["file.txt"]] []] []) ∧
      (∀ q ∈ eligibleDirs ["root"] ["root"]
          (Dir.mk "root" [Dir.mk "p" [Dir.mk "q" [] ["file.txt"]] []] []),
        sepCount q ["root"] ≤ sepCount ["root", "p", "q"] ["root"]) ∧
      ∃ pre post, eligibleDirs ["root"] ["root"]
          (Dir.mk "root" [Dir.mk "p" [Dir.mk "q" [] ["file.txt"]] []] []) =
            pre ++ ["root", "p", "q"] :: post ∧
          (∀ q ∈ pre, sepCount q ["root"] < sepCount ["root", "p", "q"] ["root"]) ∧
          (∀ q ∈ post, sepCount q ["root"] ≤ sepCount ["root", "p", "q"] ["root"]) :=
  (move_out_deepest_first ["root"] ["root"]
    (Dir.mk "root" [Dir.mk "p" [Dir.mk "q" [] ["file.txt"]] []] [])).2.2
    ["root", "p", "q"] (by decide)
